import Mathlib

/-!
Verification of the domain-search service's search orchestration and
status-resolution pipeline.

The definitions below are a shallow embedding of the TypeScript source:

* src/src/utils.ts        : extractTLD, normalizeDomain, domainrSearch,
                            domainrStatus, convertDomainrStatus,
                            checkDomainAvailabilityDNS
* src/src/index.tsx       : POST /api/search (the orchestrator)

External I/O (the Domainr client, the Cloudflare DNS-over-HTTPS resolver,
the D1 database) is modelled by oracle fields of a `SearchEnv` record:
each call site reads the outcome the environment assigns to it, and
fallible database statements are values of `Except Unit`.  JavaScript
strings are modelled as Lean `String` / `List Char`; the numeric prices
coming from the `registrar_pricing` table are modelled as rationals.
JavaScript `Array.prototype.sort` (stable since ES2019) is modelled by a
stable insertion sort parameterised by the boolean comparator.
-/

/-- Canonical availability state (the string union
`'available' | 'taken' | 'unknown'` of the source). -/
inductive AvState where
  | available
  | taken
  | unknown
  deriving DecidableEq, Repr

/-- A Domainr per-domain status record.  Both JSON fields may be absent,
mirroring `domainStatus.status || ''` and `domainStatus.summary || ''`. -/
structure StatusRecord where
  status : Option String := none
  summary : Option String := none
  deriving DecidableEq, Repr

/-! ### Character-list utilities (JS string primitives) -/

/-- JS `s.split(sep)` for a single separator character, on character
lists: splitting the empty string yields one empty part, and consecutive
separators yield empty parts. -/
def splitCharPred (p : Char → Bool) : List Char → List (List Char)
  | [] => [[]]
  | c :: cs =>
    match splitCharPred p cs with
    | [] => [[]]
    | part :: parts => if p c then [] :: part :: parts else (c :: part) :: parts

/-- JS `s.split(sep)` with a literal one-character separator. -/
def splitChar (sep : Char) (cs : List Char) : List (List Char) :=
  splitCharPred (fun c => c == sep) cs

/-- JS `parts.join(sep)` for a one-character separator. -/
def joinChar (sep : Char) : List (List Char) → List Char
  | [] => []
  | [part] => part
  | part :: parts => part ++ sep :: joinChar sep parts

/-- JS `String.prototype.trim` (both ends), on character lists. -/
def trimChars (cs : List Char) : List Char :=
  ((cs.dropWhile Char.isWhitespace).reverse.dropWhile Char.isWhitespace).reverse

/-- JS `String.prototype.trim`. -/
def jsTrim (s : String) : String :=
  String.mk (trimChars s.data)

/-- JS `String.prototype.toLowerCase` (ASCII letters, which is all the
pipeline's fixed keywords need). -/
def jsToLower (s : String) : String :=
  String.mk (s.data.map Char.toLower)

/-- JS `s.replace(pat, rep)` with a plain-string pattern: replaces the
first occurrence only. -/
def replaceFirstChars (pat rep : List Char) : List Char → List Char
  | [] => []
  | c :: cs =>
    if pat.isPrefixOf (c :: cs) then rep ++ (c :: cs).drop pat.length
    else c :: replaceFirstChars pat rep cs

/-- JS `s.replace(pat, rep)` (first occurrence) on `String`. -/
def replaceFirst (s pat rep : String) : String :=
  String.mk (replaceFirstChars pat.data rep.data s.data)

/-! ### utils.ts: extractTLD -/

/-- `extractTLD` from src/src/utils.ts:

    const parts = domain.split('.');
    if (parts.length >= 2) {
      if (parts.length >= 3 && parts[parts.length - 2].length <= 3) {
        return '.' + parts.slice(-2).join('.');
      }
      return '.' + parts[parts.length - 1];
    }
    return '';
-/
def extractTLD (domain : String) : String :=
  let parts := splitChar '.' domain.data
  if 2 ≤ parts.length then
    if 3 ≤ parts.length ∧ (parts.getD (parts.length - 2) []).length ≤ 3 then
      String.mk ('.' :: joinChar '.' (parts.drop (parts.length - 2)))
    else
      String.mk ('.' :: parts.getLastD [])
  else ""

/-- The zone-extraction function exactly as the specification words it:
splitting on the dot, fewer than 2 labels gives the empty string; at
least 3 labels with a second-to-last label of length at most 3 gives a
dot followed by the last two labels joined by a dot; otherwise a dot
followed by the last label. -/
def extractZoneSpec (domain : String) : String :=
  let parts := splitChar '.' domain.data
  if parts.length < 2 then ""
  else if 3 ≤ parts.length ∧ (parts.getD (parts.length - 2) []).length ≤ 3 then
    String.mk ('.' :: joinChar '.' (parts.drop (parts.length - 2)))
  else
    String.mk ('.' :: parts.getLastD [])

/-! ### utils.ts: normalizeDomain -/

/-- Strip a leading `http://` or `https://` (the regex
`/^https?:\/\//` of the source). -/
def stripProtocolChars (cs : List Char) : List Char :=
  if ("http://".data).isPrefixOf cs then cs.drop 7
  else if ("https://".data).isPrefixOf cs then cs.drop 8
  else cs

/-- Strip a leading `www.` (the regex `/^www\./`). -/
def stripWwwChars (cs : List Char) : List Char :=
  if ("www.".data).isPrefixOf cs then cs.drop 4 else cs

/-- Strip a single trailing slash (the regex `/\/$/`). -/
def stripTrailingSlashChars (cs : List Char) : List Char :=
  if cs.getLast? = some '/' then cs.dropLast else cs

/-- `normalizeDomain` from src/src/utils.ts:

    input.toLowerCase()
      .replace(/^https?:\/\//, '')
      .replace(/^www\./, '')
      .replace(/\/$/, '')
      .split('/')[0]
      .trim()

`split('/')[0]` is the prefix before the first remaining slash, i.e.
`takeWhile (≠ '/')`. -/
def normalizeChars (cs : List Char) : List Char :=
  trimChars
    ((stripTrailingSlashChars
        (stripWwwChars (stripProtocolChars (cs.map Char.toLower)))).takeWhile
      (fun c => c != '/'))

/-- `normalizeDomain` on `String`. -/
def normalizeDomain (input : String) : String :=
  String.mk (normalizeChars input.data)

/-! ### utils.ts: convertDomainrStatus -/

/-- Tokens of the `status` field: lowercased, split on whitespace runs,
empty strings removed (`.toLowerCase().split(/\s+/).filter(Boolean)`). -/
def statusTokensOf (s : String) : List String :=
  ((splitCharPred Char.isWhitespace (jsToLower s).data).map String.mk).filter
    (fun t => t ≠ "")

/-- `convertDomainrStatus` from src/src/utils.ts, on a possibly absent
record.  The final two branches of the summary-unknown case both return
`unknown` in the source (an explicit token check followed by the default
fall-through); they are kept separate here to mirror the source. -/
def convertDomainrStatus (domainStatus : Option StatusRecord) : AvState :=
  match domainStatus with
  | none => .unknown
  | some ds =>
    let statusTokens := statusTokensOf (ds.status.getD "")
    let summary := jsToLower (ds.summary.getD "")
    if summary = "inactive" ∨ summary = "available" ∨ summary = "undelegated" then
      .available
    else if summary = "active" ∨ summary = "parked" ∨ summary = "claimed" ∨
        summary = "registered" ∨ summary = "reserved" then
      .taken
    else if summary = "unknown" ∨ summary = "" then
      if statusTokens.contains "undelegated" ∨ statusTokens.contains "inactive" ∨
          statusTokens.contains "available" then
        .available
      else if statusTokens.contains "active" ∨ statusTokens.contains "parked" ∨
          statusTokens.contains "premium" ∨ statusTokens.contains "registered" ∨
          statusTokens.contains "reserved" then
        .taken
      else if statusTokens.contains "unknown" ∨ statusTokens = [] then
        .unknown
      else
        .unknown
    else
      .unknown

/-- The availability classifier exactly as the claim words it: priority
order, first match wins, with set membership for the summary cases and
token-set intersection for the summary-unknown case, and a conservative
`unknown` default for every unrecognized summary. -/
def classifySpec (domainStatus : Option StatusRecord) : AvState :=
  match domainStatus with
  | none => .unknown
  | some ds =>
    let tokens := statusTokensOf (ds.status.getD "")
    let summary := jsToLower (ds.summary.getD "")
    if summary ∈ (["inactive", "available", "undelegated"] : List String) then
      .available
    else if summary ∈ (["active", "parked", "claimed", "registered", "reserved"] : List String) then
      .taken
    else if summary = "unknown" ∨ summary = "" then
      if ∃ t ∈ tokens, t ∈ (["undelegated", "inactive", "available"] : List String) then
        .available
      else if ∃ t ∈ tokens, t ∈ (["active", "parked", "premium", "registered", "reserved"] : List String) then
        .taken
      else
        .unknown
    else
      .unknown

/-! ### utils.ts: checkDomainAvailabilityDNS -/

/-- Outcome of the single DNS-over-HTTPS fetch: a transport failure /
thrown error, or a response carrying the HTTP `ok` flag, the DNS
`Status` code, and the optional `Answer` array. -/
inductive DnsOutcome where
  | fail : DnsOutcome
  | resp (ok : Bool) (dnsStatus : Nat) (answer : Option (List String)) : DnsOutcome
  deriving DecidableEq, Repr

/-- `checkDomainAvailabilityDNS` from src/src/utils.ts: non-OK response
gives `unknown`; `Status === 3` (NXDOMAIN) gives `available`; a
non-empty `Answer` array gives `taken`; everything else, including the
catch-all for thrown errors, gives `unknown`. -/
def checkDomainAvailabilityDNS (o : DnsOutcome) : AvState :=
  match o with
  | .fail => .unknown
  | .resp ok dnsStatus answer =>
    if ok = false then .unknown
    else if dnsStatus = 3 then .available
    else if 0 < (answer.getD []).length then .taken
    else .unknown

/-! ### A stable comparator sort (JS Array.prototype.sort, stable since ES2019) -/

/-- Insert `a` into `l`, skipping exactly the elements strictly before it
under the comparator; on ties the inserted element (which is earlier in
the original list) comes first, giving the stable order. -/
def insertLe (le : α → α → Bool) (a : α) : List α → List α
  | [] => [a]
  | b :: l => if le b a && !le a b then b :: insertLe le a l else a :: b :: l

/-- Stable sort by a boolean comparator, modelling
`Array.prototype.sort(cmp)` where `le x y` means the comparator returns
a non-positive number on `(x, y)`. -/
def stableSort (le : α → α → Bool) : List α → List α
  | [] => []
  | a :: l => insertLe le a (stableSort le l)

/-! ### Registrar rows and projected offers -/

/-- One row of the pricing query

    SELECT r.*, rp.tld, rp.price, rp.renewal_price, rp.transfer_price, rp.currency
    FROM registrars r LEFT JOIN registrar_pricing rp ON r.id = rp.registrar_id
    WHERE r.is_active = 1 ORDER BY r.display_order ASC

The pricing columns come from the LEFT JOIN and may be NULL. -/
structure RegistrarRow where
  id : Nat
  name : String
  website : String
  affiliate_link_template : String
  logo_url : String
  is_active : Bool
  display_order : Nat
  created_at : String
  updated_at : String
  tld : Option String
  price : Option ℚ
  renewal_price : Option ℚ
  transfer_price : Option ℚ
  currency : Option String
  deriving DecidableEq, Repr

/-- The `RegistrarWithPrice` projection pushed into a result row. -/
structure RegistrarWithPrice where
  id : Nat
  name : String
  website : String
  affiliate_link_template : String
  logo_url : String
  is_active : Bool
  display_order : Nat
  created_at : String
  updated_at : String
  price : ℚ
  renewal_price : Option ℚ
  transfer_price : Option ℚ
  currency : Option String
  register_url : String
  deriving DecidableEq, Repr

/-- The fixed conversion rate `const USD_TO_JPY = 150` of the source. -/
def USD_TO_JPY : ℚ := 150

/-- The comparator's normalized price:
`let aPrice = a.price || Infinity` (so a zero price becomes Infinity,
modelled by `none`), then JPY prices are divided by the fixed rate. -/
def normPrice (o : RegistrarWithPrice) : Option ℚ :=
  if o.price = 0 then none
  else if o.currency = some "JPY" then some (o.price / USD_TO_JPY)
  else some o.price

/-- `le` form of the source's `(a, b) => aPrice - bPrice` comparator:
true when `a` need not be placed after `b`.  Two infinite prices
compare as a tie, as the stable sort leaves them in place. -/
def priceLe (a b : RegistrarWithPrice) : Bool :=
  match normPrice a, normPrice b with
  | _, none => true
  | none, some _ => false
  | some x, some y => decide (x ≤ y)

/-- Projection of a pricing row onto a `RegistrarWithPrice` for a
candidate domain, substituting the domain into the affiliate template
(`curr.affiliate_link_template.replace('{domain}', domain)`). -/
def offerOfRow (domain : String) (r : RegistrarRow) : RegistrarWithPrice :=
  { id := r.id, name := r.name, website := r.website,
    affiliate_link_template := r.affiliate_link_template, logo_url := r.logo_url,
    is_active := r.is_active, display_order := r.display_order,
    created_at := r.created_at, updated_at := r.updated_at,
    price := r.price.getD 0, renewal_price := r.renewal_price,
    transfer_price := r.transfer_price, currency := r.currency,
    register_url := replaceFirst r.affiliate_link_template "{domain}" domain }

/-- One step of the source's dedup reduce:
`if (!acc.find(r => r.id === curr.id)) acc.push(curr); return acc`. -/
def dedupPush (acc : List RegistrarWithPrice) (o : RegistrarWithPrice) :
    List RegistrarWithPrice :=
  if (acc.find? (fun r => r.id == o.id)).isSome then acc else acc ++ [o]

/-- The filter + projection + dedup common to all three registrar-list
builders: rows matching the TLD with a non-NULL price, projected, then
deduplicated by registrar id (first occurrence wins). -/
def matchingOffers (rows : List RegistrarRow) (tld domain : String) :
    List RegistrarWithPrice :=
  (((rows.filter (fun r => r.tld == some tld && r.price.isSome)).map
      (offerOfRow domain)).foldl dedupPush [])

/-- The initial pass's registrar list (src/src/index.tsx lines 130-170):
filter, dedup, sort by normalized price, keep the first 10. -/
def buildRegistrarsSorted (rows : List RegistrarRow) (tld domain : String) :
    List RegistrarWithPrice :=
  (stableSort priceLe (matchingOffers rows tld domain)).take 10

/-- The registrar list of the retry pass (lines 236-259) and of the
region-augmentation pass (lines 318-341): filter, dedup, keep the first
10 — these two code paths have no price sort. -/
def buildRegistrarsUnsorted (rows : List RegistrarRow) (tld domain : String) :
    List RegistrarWithPrice :=
  (matchingOffers rows tld domain).take 10

/-! ### Results, response, environment -/

/-- A `DomainResult` row of the response.  `registrars` is present only
for available domains; `whoisNull` records whether the `whois` field was
set to the explicit `null` placeholder (taken domains) or left absent. -/
structure DomainResult where
  domain : String
  tld : String
  status : AvState
  registrars : Option (List RegistrarWithPrice)
  whoisNull : Bool
  cached : Bool
  deriving DecidableEq, Repr

/-- The response body (the timestamp field carries no logic and is not
modelled). -/
structure SearchResponse where
  query : String
  results : List DomainResult
  deriving DecidableEq, Repr

/-- A `search_history` row as the orchestrator writes it. -/
structure HistRow where
  domain : String
  status : AvState
  tld : String
  searchQuery : String
  language : String
  deriving DecidableEq, Repr

/-- Outcome of one upstream HTTP call: thrown network error, non-OK
response, or an OK response with a parsed payload. -/
inductive ClientOutcome (α : Type) where
  | netFail : ClientOutcome α
  | httpError (code : Nat) : ClientOutcome α
  | success (payload : α) : ClientOutcome α
  deriving DecidableEq

/-- `domainrSearch` of src/src/utils.ts around its outcome: a non-OK
response is thrown and, like a network error, caught and turned into
`[]`; otherwise the candidate list (`data.results || []`, already
projected to the domain strings) is returned. -/
def domainrSearchM (o : ClientOutcome (List String)) : List String :=
  match o with
  | .success l => l
  | _ => []

/-- `domainrStatus` of src/src/utils.ts around its outcome: any failure
is caught and becomes the empty map; otherwise the `data.status` items
keyed by their `domain` field. -/
def domainrStatusM (o : ClientOutcome (List (String × StatusRecord))) :
    List (String × StatusRecord) :=
  match o with
  | .success l => l
  | _ => []

/-- `statusMap.get(domain)`: the JS map is built by successive `set`
calls, so the last entry for a key wins. -/
def statusGet (entries : List (String × StatusRecord)) (d : String) :
    Option StatusRecord :=
  (entries.reverse.find? (fun e => e.1 == d)).map (fun e => e.2)

/-- `status === 'available' ? 1 : status === 'taken' ? 0 : 2`, the value
stored in `domain_cache.is_available`. -/
def encodeAvail : AvState → Nat
  | .available => 1
  | .taken => 0
  | .unknown => 2

/-- The environment of one `POST /api/search` request: the request
fields plus one oracle per external call site.  Database statements that
the source does not wrap in a local try/catch are `Except Unit` values
whose error propagates to the route's outer catch. -/
structure SearchEnv where
  query : String
  language : Option String
  apiKey : Option String
  searchOutcome : ClientOutcome (List String)
  statusOutcome : ClientOutcome (List (String × StatusRecord))
  retryOutcome : List String → ClientOutcome (List (String × StatusRecord))
  jpOutcome : ClientOutcome (List (String × StatusRecord))
  registrarsQuery : Except Unit (List RegistrarRow)
  cachePut : String → Nat → Except Unit Unit
  histPut : HistRow → Except Unit Unit
  histUpdate : String → String → AvState → Except Unit Unit
  dnsFirst : String → DnsOutcome
  dnsRetry : String → DnsOutcome
  dnsJp : String → DnsOutcome

/-! ### The orchestrator (POST /api/search of src/src/index.tsx) -/

/-- The effective state of a candidate given its status record: the
classifier's verdict, replaced by the DNS fallback's verdict when the
classifier says `unknown` (lines 113-118, and again in the retry and
region passes). -/
def effState (dns : DnsOutcome) (rcd : StatusRecord) : AvState :=
  let s0 := convertDomainrStatus (some rcd)
  if s0 = .unknown then checkDomainAvailabilityDNS dns else s0

/-- The per-candidate pass (lines 104-199).  Returns the optional result
row, the cache writes performed, and the history rows written.  A
candidate without a status record is skipped entirely; the cache upsert
is not locally caught, so its failure propagates; the history insert is
wrapped in its own try/catch and never propagates. -/
def processCandidate (env : SearchEnv) (rows : List RegistrarRow)
    (statusEntries : List (String × StatusRecord)) (normalized : String)
    (domain : String) :
    Except Unit (Option DomainResult × List (String × Nat) × List HistRow) :=
  let tld := extractTLD domain
  match statusGet statusEntries domain with
  | none => .ok (none, [], [])
  | some rcd =>
    let status := effState (env.dnsFirst domain) rcd
    match env.cachePut domain (encodeAvail status) with
    | .error e => .error e
    | .ok _ =>
      let domainRegistrars := buildRegistrarsSorted rows tld domain
      if tld ≠ "" then
        let result : DomainResult :=
          { domain := domain, tld := tld, status := status,
            registrars := if status = .available then some domainRegistrars else none,
            whoisNull := status = .taken, cached := false }
        let histRow : HistRow :=
          { domain := domain, status := status, tld := tld,
            searchQuery := normalized, language := env.language.getD "en" }
        let hist := match env.histPut histRow with
                    | .ok _ => [histRow]
                    | .error _ => []
        .ok (some result, [(domain, encodeAvail status)], hist)
      else
        .ok (none, [(domain, encodeAvail status)], [])

/-- The loop of the per-candidate pass over the capped candidate list,
collecting the pushed result rows in order. -/
def initialPass (env : SearchEnv) (rows : List RegistrarRow)
    (statusEntries : List (String × StatusRecord)) (normalized : String) :
    List String → Except Unit (List DomainResult)
  | [] => .ok []
  | d :: ds =>
    match processCandidate env rows statusEntries normalized d with
    | .error e => .error e
    | .ok step =>
      match initialPass env rows statusEntries normalized ds with
      | .error e => .error e
      | .ok rest => .ok (step.1.toList ++ rest)

/-- The body of the retry loop (lines 210-277) for one result.  Only a
result still `unknown` is touched, and only when the retry status map
has a record for it; reclassification, one more DNS check if needed, a
cache upsert (not locally caught), the registrar list without a price
sort when the status flipped to available, and a best-effort history
update whose outcome is discarded. -/
def retryProcess (env : SearchEnv) (rows : List RegistrarRow)
    (retryEntries : List (String × StatusRecord)) (normalized : String)
    (r : DomainResult) : Except Unit DomainResult :=
  if r.status = .unknown then
    match statusGet retryEntries r.domain with
    | none => .ok r
    | some rcd =>
      let retryStatus := effState (env.dnsRetry r.domain) rcd
      match env.cachePut r.domain (encodeAvail retryStatus) with
      | .error e => .error e
      | .ok _ =>
        let r1 := { r with status := retryStatus }
        let r2 :=
          if retryStatus = .available ∧ r1.registrars = none then
            { r1 with registrars := some (buildRegistrarsUnsorted rows r1.tld r1.domain) }
          else r1
        let _ := env.histUpdate r2.domain normalized retryStatus
        .ok r2
  else .ok r

/-- The retry loop over all results (in-place mutation modelled as a
map). -/
def retryAll (env : SearchEnv) (rows : List RegistrarRow)
    (retryEntries : List (String × StatusRecord)) (normalized : String) :
    List DomainResult → Except Unit (List DomainResult)
  | [] => .ok []
  | r :: rs =>
    match retryProcess env rows retryEntries normalized r with
    | .error e => .error e
    | .ok r' =>
      match retryAll env rows retryEntries normalized rs with
      | .error e => .error e
      | .ok rest => .ok (r' :: rest)

/-- The unknown-retry pass (lines 201-278): collect the still-unknown
domains; if any, (after the fixed 1-second delay, which carries no data)
call batch status once for exactly that subset and run the retry loop. -/
def retryPass (env : SearchEnv) (rows : List RegistrarRow) (normalized : String)
    (results : List DomainResult) : Except Unit (List DomainResult) :=
  let unknownDomains := (results.filter (fun r => r.status == AvState.unknown)).map
    (fun r => r.domain)
  if unknownDomains = [] then .ok results
  else retryAll env rows (domainrStatusM (env.retryOutcome unknownDomains)) normalized results

/-- The comparator of the final sort (lines 281-284):
`statusOrder = { available: 0, taken: 1, unknown: 2 }`. -/
def statusOrd : AvState → Nat
  | .available => 0
  | .taken => 1
  | .unknown => 2

/-- `le` form of the final sort's comparator. -/
def statusLe (a b : DomainResult) : Bool :=
  decide (statusOrd a.status ≤ statusOrd b.status)

/-- The fallible inner part of the region-augmentation branch (lines
297-365), from the Domainr status call to the history insert; the whole
of it sits inside one try/catch in the source. -/
def jpAttempt (env : SearchEnv) (rows : List RegistrarRow) (normalized : String)
    (jpDomain : String) : Except Unit (Option DomainResult) :=
  match statusGet (domainrStatusM env.jpOutcome) jpDomain with
  | none => .ok none
  | some rcd =>
    let jpStatus := effState (env.dnsJp jpDomain) rcd
    match env.cachePut jpDomain (encodeAvail jpStatus) with
    | .error e => .error e
    | .ok _ =>
      let jpRegistrars := buildRegistrarsUnsorted rows ".jp" jpDomain
      let r : DomainResult :=
        { domain := jpDomain, tld := ".jp", status := jpStatus,
          registrars := if jpStatus = .available then some jpRegistrars else none,
          whoisNull := jpStatus = .taken, cached := false }
      let _ := env.histPut
        { domain := jpDomain, status := jpStatus, tld := ".jp",
          searchQuery := normalized, language := "ja" }
      .ok (some r)

/-- The region-augmentation pass (lines 287-370): only for language
`ja`; the base name is the first whitespace/comma-delimited token of the
normalized query truncated at its first dot; the `.jp` candidate is
skipped when already present or when the base name is empty; any error
inside the branch is caught and leaves the results unchanged. -/
def jpAugment (env : SearchEnv) (rows : List RegistrarRow) (normalized : String)
    (results : List DomainResult) : List DomainResult :=
  if env.language = some "ja" then
    let baseDomain := String.mk
      ((normalized.data.takeWhile (fun c => !(c.isWhitespace || c == ','))).takeWhile
        (fun c => c != '.'))
    let jpDomain := baseDomain ++ ".jp"
    if (!results.any (fun r => r.domain == jpDomain)) && (baseDomain ≠ "") then
      match jpAttempt env rows normalized jpDomain with
      | .ok (some r) => results ++ [r]
      | .ok none => results
      | .error _ => results
    else results
  else results

/-- The four observable outcomes of the route: 400 for a missing/blank
query, 503 for a missing Domainr credential, 200 with a body, 500 from
the outer catch. -/
inductive SearchHttp where
  | badRequest : SearchHttp
  | noApiKey : SearchHttp
  | success (resp : SearchResponse) : SearchHttp
  | internalError : SearchHttp
  deriving DecidableEq, Repr

/-- `POST /api/search` (lines 50-383): validate, fetch the credential,
suggest (empty list short-circuits to an empty success), cap to 50,
batch status, pricing query, per-candidate pass, retry pass, final
status sort, region augmentation, response; any uncaught error becomes
the 500 response. -/
def runSearch (env : SearchEnv) : SearchHttp :=
  if jsTrim env.query = "" then .badRequest
  else
    let normalized := normalizeDomain env.query
    if env.apiKey.getD "" = "" then .noApiKey
    else
      let searchResults := domainrSearchM env.searchOutcome
      if searchResults = [] then .success { query := normalized, results := [] }
      else
        let domains := searchResults.take 50
        let statusEntries := domainrStatusM env.statusOutcome
        match env.registrarsQuery with
        | .error _ => .internalError
        | .ok rows =>
          match initialPass env rows statusEntries normalized domains with
          | .error _ => .internalError
          | .ok rs1 =>
            match retryPass env rows normalized rs1 with
            | .error _ => .internalError
            | .ok rs2 =>
              .success { query := normalized,
                         results := jpAugment env rows normalized (stableSort statusLe rs2) }

/-! ### Lemmas about the stable comparator sort -/

theorem mem_insertLe {le : α → α → Bool} {a x : α} :
    ∀ {l : List α}, x ∈ insertLe le a l → x = a ∨ x ∈ l := by
  intro l
  induction l with
  | nil => intro h; simp [insertLe] at h; exact Or.inl h
  | cons b t ih =>
    intro h
    simp only [insertLe] at h
    by_cases hc : (le b a && !le a b) = true
    · rw [if_pos hc] at h
      rcases List.mem_cons.mp h with h | h
      · exact Or.inr (h ▸ List.mem_cons_self b t)
      · rcases ih h with h | h
        · exact Or.inl h
        · exact Or.inr (List.mem_cons_of_mem b h)
    · rw [if_neg hc] at h
      rcases List.mem_cons.mp h with h | h
      · exact Or.inl h
      · exact Or.inr h

theorem insertLe_perm (le : α → α → Bool) (a : α) :
    ∀ l : List α, List.Perm (insertLe le a l) (a :: l) := by
  intro l
  induction l with
  | nil => simp [insertLe]
  | cons b t ih =>
    simp only [insertLe]
    by_cases hc : (le b a && !le a b) = true
    · rw [if_pos hc]
      exact ((ih.cons b).trans (List.Perm.swap a b t))
    · rw [if_neg hc]

theorem stableSort_perm (le : α → α → Bool) :
    ∀ l : List α, List.Perm (stableSort le l) l := by
  intro l
  induction l with
  | nil => simp [stableSort]
  | cons a t ih =>
    simp only [stableSort]
    exact (insertLe_perm le a (stableSort le t)).trans (ih.cons a)

theorem mem_stableSort {le : α → α → Bool} {x : α} {l : List α}
    (h : x ∈ stableSort le l) : x ∈ l :=
  (stableSort_perm le l).mem_iff.mp h

theorem pairwise_insertLe {le : α → α → Bool}
    (htotal : ∀ x y, le x y = true ∨ le y x = true)
    (htrans : ∀ x y z, le x y = true → le y z = true → le x z = true)
    {a : α} :
    ∀ {l : List α}, l.Pairwise (fun x y => le x y = true) →
      (insertLe le a l).Pairwise (fun x y => le x y = true) := by
  intro l
  induction l with
  | nil => intro _; simp [insertLe]
  | cons b t ih =>
    intro h
    rcases List.pairwise_cons.mp h with ⟨hb, ht⟩
    simp only [insertLe]
    by_cases hc : (le b a && !le a b) = true
    · rw [if_pos hc]
      have hba : le b a = true := (Bool.and_eq_true _ _ |>.mp hc).1
      refine List.pairwise_cons.mpr ⟨?_, ih ht⟩
      intro x hx
      rcases mem_insertLe hx with rfl | hx
      · exact hba
      · exact hb x hx
    · rw [if_neg hc]
      have hab : le a b = true := by
        rcases htotal a b with h1 | h1
        · exact h1
        · rcases Bool.not_eq_true _ ▸ hc with _
          by_cases h2 : le a b = true
          · exact h2
          · exfalso
            apply hc
            simp [h1, h2]
      refine List.pairwise_cons.mpr ⟨?_, h⟩
      intro x hx
      rcases List.mem_cons.mp hx with rfl | hx
      · exact hab
      · exact htrans a b x hab (hb x hx)

theorem pairwise_stableSort {le : α → α → Bool}
    (htotal : ∀ x y, le x y = true ∨ le y x = true)
    (htrans : ∀ x y z, le x y = true → le y z = true → le x z = true) :
    ∀ l : List α, (stableSort le l).Pairwise (fun x y => le x y = true) := by
  intro l
  induction l with
  | nil => simp [stableSort]
  | cons a t ih =>
    simp only [stableSort]
    exact pairwise_insertLe htotal htrans ih

theorem filter_insertLe {le : α → α → Bool} {p : α → Bool} {a : α}
    (h : p a = true → ∀ b, (le b a && !le a b) = true → p b = false) :
    ∀ l : List α, (insertLe le a l).filter p =
      if p a then a :: l.filter p else l.filter p := by
  intro l
  induction l with
  | nil =>
    simp only [insertLe, List.filter]
    by_cases hp : p a = true
    · simp [hp]
    · simp [Bool.not_eq_true _ ▸ hp, List.filter, (Bool.not_eq_true (p a)).mp hp]
  | cons b t ih =>
    simp only [insertLe]
    by_cases hc : (le b a && !le a b) = true
    · rw [if_pos hc]
      by_cases hp : p a = true
      · have hpb : p b = false := h hp b hc
        simp only [List.filter, hpb, ih, hp, if_pos]
      · have hp' : p a = false := (Bool.not_eq_true (p a)).mp hp
        simp only [List.filter, ih, hp']
        cases hb : p b <;> simp [hb]
    · rw [if_neg hc]
      by_cases hp : p a = true
      · simp [List.filter, hp]
      · have hp' : p a = false := (Bool.not_eq_true (p a)).mp hp
        simp [List.filter, hp']

theorem filter_stableSort {le : α → α → Bool} {p : α → Bool}
    (h : ∀ a, p a = true → ∀ b, (le b a && !le a b) = true → p b = false) :
    ∀ l : List α, (stableSort le l).filter p = l.filter p := by
  intro l
  induction l with
  | nil => simp [stableSort]
  | cons a t ih =>
    simp only [stableSort, filter_insertLe (h a), ih]
    by_cases hp : p a = true
    · simp [List.filter, hp]
    · simp [List.filter, (Bool.not_eq_true (p a)).mp hp]

/-! ### Lemmas about the registrar-list builders -/

theorem priceLe_total : ∀ a b : RegistrarWithPrice,
    priceLe a b = true ∨ priceLe b a = true := by
  intro a b
  unfold priceLe
  cases ha : normPrice a <;> cases hb : normPrice b
  · simp
  · simp
  · simp
  · rename_i x y
    simp only []
    rcases le_total x y with h | h
    · exact Or.inl (by simpa using h)
    · exact Or.inr (by simpa using h)

theorem priceLe_trans : ∀ a b c : RegistrarWithPrice,
    priceLe a b = true → priceLe b c = true → priceLe a c = true := by
  intro a b c hab hbc
  unfold priceLe at *
  cases ha : normPrice a <;> cases hb : normPrice b <;> cases hc : normPrice c <;>
    simp_all
  exact le_trans hab hbc

theorem statusLe_total : ∀ a b : DomainResult,
    statusLe a b = true ∨ statusLe b a = true := by
  intro a b
  unfold statusLe
  rcases Nat.le_total (statusOrd a.status) (statusOrd b.status) with h | h
  · exact Or.inl (by simpa using h)
  · exact Or.inr (by simpa using h)

theorem statusLe_trans : ∀ a b c : DomainResult,
    statusLe a b = true → statusLe b c = true → statusLe a c = true := by
  intro a b c hab hbc
  unfold statusLe at *
  simp only [decide_eq_true_eq] at *
  exact le_trans hab hbc

theorem nodupIds_foldl_dedupPush :
    ∀ (os : List RegistrarWithPrice) (acc : List RegistrarWithPrice),
      (acc.map (fun r => r.id)).Nodup →
      ((os.foldl dedupPush acc).map (fun r => r.id)).Nodup := by
  intro os
  induction os with
  | nil => intro acc h; simpa using h
  | cons o t ih =>
    intro acc h
    simp only [List.foldl_cons]
    apply ih
    unfold dedupPush
    by_cases hf : ((acc.find? (fun r => r.id == o.id)).isSome) = true
    · rw [if_pos hf]; exact h
    · rw [if_neg hf]
      have hnone : acc.find? (fun r => r.id == o.id) = none := by
        cases hx : acc.find? (fun r => r.id == o.id)
        · rfl
        · exact absurd (by simp [hx]) hf
      have hnotin : o.id ∉ acc.map (fun r => r.id) := by
        intro hmem
        rcases List.mem_map.mp hmem with ⟨r, hr, hrid⟩
        have := List.find?_eq_none.mp hnone r hr
        simp [hrid] at this
      simp only [List.map_append, List.map_cons, List.map_nil]
      rw [List.nodup_append]
      refine ⟨h, List.nodup_singleton _, ?_⟩
      intro x hx hy
      simp only [List.mem_singleton] at hy
      subst hy
      exact hnotin hx

theorem nodupIds_matchingOffers (rows : List RegistrarRow) (tld domain : String) :
    ((matchingOffers rows tld domain).map (fun r => r.id)).Nodup := by
  unfold matchingOffers
  exact nodupIds_foldl_dedupPush _ [] (by simp)

theorem buildRegistrarsSorted_nodupIds (rows : List RegistrarRow) (tld domain : String) :
    ((buildRegistrarsSorted rows tld domain).map (fun r => r.id)).Nodup := by
  unfold buildRegistrarsSorted
  have hperm := (stableSort_perm priceLe (matchingOffers rows tld domain)).map
    (fun r : RegistrarWithPrice => r.id)
  have hnodup : ((stableSort priceLe (matchingOffers rows tld domain)).map
      (fun r => r.id)).Nodup :=
    hperm.nodup_iff.mpr (nodupIds_matchingOffers rows tld domain)
  rw [List.map_take]
  exact hnodup.sublist (List.take_sublist _ _)

theorem buildRegistrarsSorted_length (rows : List RegistrarRow) (tld domain : String) :
    (buildRegistrarsSorted rows tld domain).length ≤ 10 := by
  unfold buildRegistrarsSorted
  simp [List.length_take]

theorem buildRegistrarsSorted_sorted (rows : List RegistrarRow) (tld domain : String) :
    (buildRegistrarsSorted rows tld domain).Pairwise
      (fun a b => priceLe a b = true) := by
  unfold buildRegistrarsSorted
  exact (pairwise_stableSort priceLe_total priceLe_trans _).sublist
    (List.take_sublist _ _)

theorem buildRegistrarsUnsorted_nodupIds (rows : List RegistrarRow) (tld domain : String) :
    ((buildRegistrarsUnsorted rows tld domain).map (fun r => r.id)).Nodup := by
  unfold buildRegistrarsUnsorted
  rw [List.map_take]
  exact (nodupIds_matchingOffers rows tld domain).sublist (List.take_sublist _ _)

theorem buildRegistrarsUnsorted_length (rows : List RegistrarRow) (tld domain : String) :
    (buildRegistrarsUnsorted rows tld domain).length ≤ 10 := by
  unfold buildRegistrarsUnsorted
  simp [List.length_take]

/-! ### Pipeline inversion lemmas -/

theorem extractTLD_labels {d : String} (h : extractTLD d ≠ "") :
    2 ≤ (splitChar '.' d.data).length := by
  by_contra hlt
  apply h
  unfold extractTLD
  simp only []
  rw [if_neg hlt]

theorem processCandidate_ok_some {env : SearchEnv} {rows : List RegistrarRow}
    {statusEntries : List (String × StatusRecord)} {normalized d : String}
    {r : DomainResult} {cw : List (String × Nat)} {hw : List HistRow}
    (h : processCandidate env rows statusEntries normalized d = .ok (some r, cw, hw)) :
    r.domain = d ∧ r.tld = extractTLD d ∧ r.tld ≠ "" ∧
    (r.registrars = none ∨
     r.registrars = some (buildRegistrarsSorted rows (extractTLD d) d)) := by
  unfold processCandidate at h
  split at h
  · simp at h
  · rename_i rcd heqs
    dsimp only [] at h
    split at h
    · simp at h
    · split at h
      · rename_i htld
        simp only [Except.ok.injEq, Prod.mk.injEq, Option.some.injEq] at h
        obtain ⟨hr, -, -⟩ := h
        subst hr
        refine ⟨rfl, rfl, htld, ?_⟩
        by_cases hs : effState (env.dnsFirst d) rcd = .available
        · right; simp [hs]
        · left; simp [hs]
      · simp at h

theorem initialPass_mem {env : SearchEnv} {rows : List RegistrarRow}
    {statusEntries : List (String × StatusRecord)} {normalized : String} :
    ∀ {ds : List String} {rs : List DomainResult},
      initialPass env rows statusEntries normalized ds = .ok rs →
      ∀ r ∈ rs, ∃ d cw hw,
        processCandidate env rows statusEntries normalized d = .ok (some r, cw, hw) := by
  intro ds
  induction ds with
  | nil =>
    intro rs h r hr
    unfold initialPass at h
    simp only [Except.ok.injEq] at h
    subst h
    simp at hr
  | cons d t ih =>
    intro rs h r hr
    unfold initialPass at h
    split at h
    · simp at h
    · rename_i step hstep
      split at h
      · simp at h
      · rename_i rest hrest
        simp only [Except.ok.injEq] at h
        subst h
        rcases List.mem_append.mp hr with hr | hr
        · obtain ⟨o, cw, hw⟩ := step
          cases o with
          | none => simp [Option.toList] at hr
          | some r0 =>
            simp only [Option.toList, List.mem_singleton] at hr
            subst hr
            exact ⟨d, cw, hw, hstep⟩
        · exact ih hrest r hr

theorem retryProcess_shape {env : SearchEnv} {rows : List RegistrarRow}
    {retryEntries : List (String × StatusRecord)} {normalized : String}
    {r r' : DomainResult}
    (h : retryProcess env rows retryEntries normalized r = .ok r') :
    r'.domain = r.domain ∧ r'.tld = r.tld ∧
    (r'.registrars = r.registrars ∨
     r'.registrars = some (buildRegistrarsUnsorted rows r.tld r.domain)) := by
  unfold retryProcess at h
  split at h
  · split at h
    · simp only [Except.ok.injEq] at h
      subst h
      exact ⟨rfl, rfl, Or.inl rfl⟩
    · rename_i rcd heqr
      dsimp only [] at h
      split at h
      · simp at h
      · simp only [Except.ok.injEq] at h
        subst h
        by_cases hc : effState (env.dnsRetry r.domain) rcd = .available ∧ r.registrars = none
        · rw [if_pos hc]
          exact ⟨rfl, rfl, Or.inr rfl⟩
        · rw [if_neg hc]
          exact ⟨rfl, rfl, Or.inl rfl⟩
  · simp only [Except.ok.injEq] at h
    subst h
    exact ⟨rfl, rfl, Or.inl rfl⟩

theorem retryAll_mem {env : SearchEnv} {rows : List RegistrarRow}
    {retryEntries : List (String × StatusRecord)} {normalized : String} :
    ∀ {rs rs' : List DomainResult},
      retryAll env rows retryEntries normalized rs = .ok rs' →
      ∀ r' ∈ rs', ∃ r ∈ rs,
        retryProcess env rows retryEntries normalized r = .ok r' := by
  intro rs
  induction rs with
  | nil =>
    intro rs' h r' hr'
    unfold retryAll at h
    simp only [Except.ok.injEq] at h
    subst h
    simp at hr'
  | cons r0 t ih =>
    intro rs' h r' hr'
    unfold retryAll at h
    split at h
    · simp at h
    · rename_i x hx
      split at h
      · simp at h
      · rename_i rest hrest
        simp only [Except.ok.injEq] at h
        subst h
        rcases List.mem_cons.mp hr' with hr' | hr'
        · subst hr'
          exact ⟨r0, List.mem_cons_self _ _, hx⟩
        · obtain ⟨r1, hr1, hp⟩ := ih hrest r' hr'
          exact ⟨r1, List.mem_cons_of_mem _ hr1, hp⟩

theorem retryPass_mem {env : SearchEnv} {rows : List RegistrarRow}
    {normalized : String} {rs rs' : List DomainResult}
    (h : retryPass env rows normalized rs = .ok rs') :
    ∀ r' ∈ rs', ∃ r ∈ rs, r' = r ∨
      ∃ es, retryProcess env rows es normalized r = .ok r' := by
  intro r' hr'
  unfold retryPass at h
  dsimp only [] at h
  split at h
  · simp only [Except.ok.injEq] at h
    subst h
    exact ⟨r', hr', Or.inl rfl⟩
  · obtain ⟨r, hr, hp⟩ := retryAll_mem h r' hr'
    exact ⟨r, hr, Or.inr ⟨_, hp⟩⟩

theorem splitCharPred_ne_nil (p : Char → Bool) :
    ∀ cs : List Char, splitCharPred p cs ≠ [] := by
  intro cs
  cases cs with
  | nil => simp [splitCharPred]
  | cons c t =>
    unfold splitCharPred
    split
    · simp
    · split <;> simp

theorem splitCharPred_cons (p : Char → Bool) (c : Char) (cs : List Char) :
    splitCharPred p (c :: cs) =
      match splitCharPred p cs with
      | [] => [[]]
      | part :: parts => if p c then [] :: part :: parts else (c :: part) :: parts := rfl

theorem splitChar_sepfree_append {sep : Char} :
    ∀ {xs : List Char}, (∀ c ∈ xs, c ≠ sep) → ∀ ys : List Char,
      splitChar sep (xs ++ sep :: ys) = xs :: splitChar sep ys := by
  intro xs
  induction xs with
  | nil =>
    intro _ ys
    simp only [splitChar, List.nil_append, splitCharPred_cons]
    cases hy : splitCharPred (fun c => c == sep) ys with
    | nil => exact absurd hy (splitCharPred_ne_nil _ ys)
    | cons part parts => simp
  | cons x t ih =>
    intro hfree ys
    have hx : x ≠ sep := hfree x (List.mem_cons_self _ _)
    have ht : ∀ c ∈ t, c ≠ sep := fun c hc => hfree c (List.mem_cons_of_mem _ hc)
    have hrec := ih ht ys
    simp only [splitChar] at hrec ⊢
    simp only [List.cons_append, splitCharPred_cons, hrec]
    simp [hx]

theorem jpAttempt_ok_some {env : SearchEnv} {rows : List RegistrarRow}
    {normalized jpDomain : String} {r : DomainResult}
    (h : jpAttempt env rows normalized jpDomain = .ok (some r)) :
    r.domain = jpDomain ∧ r.tld = ".jp" ∧
    (r.registrars = none ∨
     r.registrars = some (buildRegistrarsUnsorted rows ".jp" jpDomain)) := by
  unfold jpAttempt at h
  split at h
  · simp at h
  · rename_i rcd heq
    dsimp only [] at h
    split at h
    · simp at h
    · simp only [Except.ok.injEq, Option.some.injEq] at h
      subst h
      refine ⟨rfl, rfl, ?_⟩
      by_cases hs : effState (env.dnsJp jpDomain) rcd = .available
      · right; simp [hs]
      · left; simp [hs]

theorem jpAugment_cases (env : SearchEnv) (rows : List RegistrarRow)
    (normalized : String) (rs : List DomainResult) :
    jpAugment env rows normalized rs = rs ∨
    ∃ r, jpAugment env rows normalized rs = rs ++ [r] ∧ r.tld = ".jp" ∧
      2 ≤ (splitChar '.' r.domain.data).length ∧
      (r.registrars = none ∨
       r.registrars = some (buildRegistrarsUnsorted rows ".jp" r.domain)) := by
  unfold jpAugment
  split
  · dsimp only []
    split
    · split
      · rename_i r0 hro
        right
        obtain ⟨hdom, htld, hreg⟩ := jpAttempt_ok_some hro
        refine ⟨r0, rfl, htld, ?_, hdom ▸ hreg⟩
        rw [hdom]
        rw [String.data_append]
        have hfree : ∀ c ∈ ((normalized.data.takeWhile
            (fun c => !(c.isWhitespace || c == ','))).takeWhile (fun c => c != '.')),
            c ≠ '.' := by
          intro c hc
          have := List.mem_takeWhile_imp hc
          simpa using this
        rw [show (".jp" : String).data = '.' :: ['j', 'p'] from rfl]
        rw [splitChar_sepfree_append hfree]
        rw [show splitChar '.' ['j', 'p'] = [['j', 'p']] by decide]
        simp
      · left; rfl
      · left; rfl
    · left; rfl
  · left; rfl

/-- The response-level invariant shared by every result row. -/
def ResultInv (r : DomainResult) : Prop :=
  (∀ l, r.registrars = some l →
    ((l.map (fun o => o.id)).Nodup ∧ l.length ≤ 10)) ∧
  r.tld ≠ "" ∧ 2 ≤ (splitChar '.' r.domain.data).length

theorem ResultInv_of_processCandidate {env : SearchEnv} {rows : List RegistrarRow}
    {statusEntries : List (String × StatusRecord)} {normalized d : String}
    {r : DomainResult} {cw : List (String × Nat)} {hw : List HistRow}
    (h : processCandidate env rows statusEntries normalized d = .ok (some r, cw, hw)) :
    ResultInv r := by
  obtain ⟨hdom, htld, hne, hreg⟩ := processCandidate_ok_some h
  refine ⟨?_, hne, ?_⟩
  · intro l hl
    rcases hreg with hreg | hreg
    · rw [hreg] at hl; cases hl
    · rw [hreg] at hl
      obtain rfl := Option.some.inj hl
      exact ⟨buildRegistrarsSorted_nodupIds _ _ _, buildRegistrarsSorted_length _ _ _⟩
  · rw [hdom]
    exact extractTLD_labels (htld ▸ hne)

theorem ResultInv_retry {env : SearchEnv} {rows : List RegistrarRow}
    {retryEntries : List (String × StatusRecord)} {normalized : String}
    {r r' : DomainResult}
    (hr : ResultInv r)
    (h : retryProcess env rows retryEntries normalized r = .ok r') :
    ResultInv r' := by
  obtain ⟨hdom, htld, hreg⟩ := retryProcess_shape h
  obtain ⟨hrr, hne, hlab⟩ := hr
  refine ⟨?_, htld ▸ hne, hdom ▸ hlab⟩
  intro l hl
  rcases hreg with hreg | hreg
  · exact hrr l (hreg ▸ hl)
  · rw [hreg] at hl
    obtain rfl := Option.some.inj hl
    exact ⟨buildRegistrarsUnsorted_nodupIds _ _ _, buildRegistrarsUnsorted_length _ _ _⟩

theorem runSearch_success_cases {env : SearchEnv} {resp : SearchResponse}
    (h : runSearch env = .success resp) :
    resp.results = [] ∨
    ∃ rows rs1 rs2,
      env.registrarsQuery = .ok rows ∧
      initialPass env rows (domainrStatusM env.statusOutcome) (normalizeDomain env.query)
        ((domainrSearchM env.searchOutcome).take 50) = .ok rs1 ∧
      retryPass env rows (normalizeDomain env.query) rs1 = .ok rs2 ∧
      resp.results = jpAugment env rows (normalizeDomain env.query)
        (stableSort statusLe rs2) := by
  unfold runSearch at h
  split at h
  · cases h
  · dsimp only [] at h
    split at h
    · cases h
    · split at h
      · simp only [SearchHttp.success.injEq] at h
        subst h
        exact Or.inl rfl
      · split at h
        · cases h
        · rename_i rows hrows
          split at h
          · cases h
          · rename_i rs1 hrs1
            split at h
            · cases h
            · rename_i rs2 hrs2
              simp only [SearchHttp.success.injEq] at h
              subst h
              exact Or.inr ⟨rows, rs1, rs2, hrows, hrs1, hrs2, rfl⟩

theorem runSearch_results_inv {env : SearchEnv} {resp : SearchResponse}
    (h : runSearch env = .success resp) :
    ∀ r ∈ resp.results, ResultInv r := by
  intro r hr
  rcases runSearch_success_cases h with hres | ⟨rows, rs1, rs2, _, h1, h2, hres⟩
  · rw [hres] at hr; cases hr
  · rw [hres] at hr
    rcases jpAugment_cases env rows (normalizeDomain env.query) (stableSort statusLe rs2)
      with hcase | ⟨rjp, hcase, hjtld, hjlab, hjreg⟩
    · rw [hcase] at hr
      have hr2 : r ∈ rs2 := mem_stableSort hr
      obtain ⟨r1, hr1, hrel⟩ := retryPass_mem h2 r hr2
      obtain ⟨d, cw, hw, hpc⟩ := initialPass_mem h1 r1 hr1
      rcases hrel with rfl | ⟨es, hrp⟩
      · exact ResultInv_of_processCandidate hpc
      · exact ResultInv_retry (ResultInv_of_processCandidate hpc) hrp
    · rw [hcase] at hr
      rcases List.mem_append.mp hr with hr | hr
      · have hr2 : r ∈ rs2 := mem_stableSort hr
        obtain ⟨r1, hr1, hrel⟩ := retryPass_mem h2 r hr2
        obtain ⟨d, cw, hw, hpc⟩ := initialPass_mem h1 r1 hr1
        rcases hrel with rfl | ⟨es, hrp⟩
        · exact ResultInv_of_processCandidate hpc
        · exact ResultInv_retry (ResultInv_of_processCandidate hpc) hrp
      · simp only [List.mem_singleton] at hr
        subst hr
        refine ⟨?_, by rw [hjtld]; simp, hjlab⟩
        intro l hl
        rcases hjreg with hjreg | hjreg
        · rw [hjreg] at hl; cases hl
        · rw [hjreg] at hl
          obtain rfl := Option.some.inj hl
          exact ⟨buildRegistrarsUnsorted_nodupIds _ _ _, buildRegistrarsUnsorted_length _ _ _⟩

/-! ### Leaf-function correctness lemmas -/

theorem extractTLD_eq_spec : ∀ d : String, extractTLD d = extractZoneSpec d := by
  intro d
  unfold extractTLD extractZoneSpec
  dsimp only []
  by_cases h : 2 ≤ (splitChar '.' d.data).length
  · rw [if_pos h, if_neg (by omega : ¬ (splitChar '.' d.data).length < 2)]
  · rw [if_neg h, if_pos (by omega : (splitChar '.' d.data).length < 2)]


theorem exists_mem_three (tokens : List String) (a b c : String) :
    (∃ t ∈ tokens, t = a ∨ t = b ∨ t = c) ↔
      (a ∈ tokens ∨ b ∈ tokens ∨ c ∈ tokens) := by
  constructor
  · rintro ⟨t, ht, rfl | rfl | rfl⟩ <;> tauto
  · rintro (h | h | h) <;> exact ⟨_, h, by tauto⟩

theorem exists_mem_five (tokens : List String) (a b c d e : String) :
    (∃ t ∈ tokens, t = a ∨ t = b ∨ t = c ∨ t = d ∨ t = e) ↔
      (a ∈ tokens ∨ b ∈ tokens ∨ c ∈ tokens ∨ d ∈ tokens ∨ e ∈ tokens) := by
  constructor
  · rintro ⟨t, ht, rfl | rfl | rfl | rfl | rfl⟩ <;> tauto
  · rintro (h | h | h | h | h) <;> exact ⟨_, h, by tauto⟩

theorem convert_eq_spec : ∀ ds : Option StatusRecord,
    convertDomainrStatus ds = classifySpec ds := by
  intro ds
  cases ds with
  | none => rfl
  | some r =>
    simp only [convertDomainrStatus, classifySpec, List.mem_cons, List.not_mem_nil,
      or_false, List.elem_iff, exists_mem_three, exists_mem_five]
    split_ifs <;> rfl

theorem dns_available_iff : ∀ o : DnsOutcome,
    checkDomainAvailabilityDNS o = .available ↔ ∃ ans, o = .resp true 3 ans := by
  intro o
  cases o with
  | fail => simp [checkDomainAvailabilityDNS]
  | resp ok st ans =>
    cases ok with
    | false => simp [checkDomainAvailabilityDNS]
    | true =>
      simp only [checkDomainAvailabilityDNS]
      rw [if_neg (by simp : ¬ (true = false))]
      split_ifs with h2 h3
      · subst h2; simp
      · constructor
        · intro h; exact absurd h (by decide)
        · rintro ⟨a, ha⟩
          injection ha with h₁ h₂ h₃
          exact absurd h₂ h2
      · constructor
        · intro h; exact absurd h (by decide)
        · rintro ⟨a, ha⟩
          injection ha with h₁ h₂ h₃
          exact absurd h₂ h2

/-! ### Normalizer idempotence lemmas -/

theorem char_toNat_ofNat_valid (n : Nat) (h : n.isValidChar) :
    (Char.ofNat n).toNat = n := by
  unfold Char.ofNat
  rw [dif_pos h]
  rfl

theorem char_toLower_idem (c : Char) :
    Char.toLower (Char.toLower c) = Char.toLower c := by
  unfold Char.toLower
  dsimp only []
  by_cases h : c.toNat ≥ 65 ∧ c.toNat ≤ 90
  · rw [if_pos h]
    have hvalid : (c.toNat + 32).isValidChar := by
      left
      omega
    have htn : (Char.ofNat (c.toNat + 32)).toNat = c.toNat + 32 :=
      char_toNat_ofNat_valid _ hvalid
    rw [htn]
    rw [if_neg (by omega : ¬ (c.toNat + 32 ≥ 65 ∧ c.toNat + 32 ≤ 90))]
  · rw [if_neg h, if_neg h]

theorem dropWhile_head_false {p : α → Bool} :
    ∀ {l : List α} {a : α}, (l.dropWhile p).head? = some a → p a = false := by
  intro l
  induction l with
  | nil => intro a h; simp [List.dropWhile] at h
  | cons b t ih =>
    intro a h
    rw [List.dropWhile_cons] at h
    by_cases hb : p b = true
    · rw [if_pos hb] at h
      exact ih h
    · rw [if_neg hb] at h
      simp only [List.head?_cons, Option.some.injEq] at h
      subst h
      exact (Bool.not_eq_true _).mp hb

theorem dropWhile_dropWhile (p : α → Bool) (l : List α) :
    (l.dropWhile p).dropWhile p = l.dropWhile p := by
  cases h : l.dropWhile p with
  | nil => rfl
  | cons a t =>
    have ha : p a = false := dropWhile_head_false (by rw [h]; rfl)
    rw [List.dropWhile_cons, if_neg (by simp [ha])]

theorem mem_trimChars {a : Char} {l : List Char} (h : a ∈ trimChars l) : a ∈ l := by
  unfold trimChars at h
  have h1 := List.mem_reverse.mp h
  have h2 := (List.dropWhile_suffix _).sublist.mem h1
  have h3 := List.mem_reverse.mp h2
  exact (List.dropWhile_suffix _).sublist.mem h3

theorem mem_stripTrailingSlashChars {a : Char} {l : List Char}
    (h : a ∈ stripTrailingSlashChars l) : a ∈ l := by
  unfold stripTrailingSlashChars at h
  split at h
  · exact (List.dropLast_sublist _).mem h
  · exact h

theorem mem_stripWwwChars {a : Char} {l : List Char}
    (h : a ∈ stripWwwChars l) : a ∈ l := by
  unfold stripWwwChars at h
  split at h
  · exact (List.drop_sublist _ _).mem h
  · exact h

theorem mem_stripProtocolChars {a : Char} {l : List Char}
    (h : a ∈ stripProtocolChars l) : a ∈ l := by
  unfold stripProtocolChars at h
  split at h
  · exact (List.drop_sublist _ _).mem h
  · split at h
    · exact (List.drop_sublist _ _).mem h
    · exact h

theorem mem_normalizeChars {a : Char} {cs : List Char} (h : a ∈ normalizeChars cs) :
    ∃ b ∈ cs, a = Char.toLower b := by
  unfold normalizeChars at h
  have h1 := mem_trimChars h
  have h2 := (List.takeWhile_sublist _).mem h1
  have h3 := mem_stripTrailingSlashChars h2
  have h4 := mem_stripWwwChars h3
  have h5 := mem_stripProtocolChars h4
  obtain ⟨b, hb, hab⟩ := List.mem_map.mp h5
  exact ⟨b, hb, hab.symm⟩

theorem normalizeChars_no_slash {a : Char} {cs : List Char}
    (h : a ∈ normalizeChars cs) : a ≠ '/' := by
  unfold normalizeChars at h
  have h1 := mem_trimChars h
  have h2 := List.mem_takeWhile_imp h1
  simpa using h2

theorem map_toLower_self : ∀ {l : List Char},
    (∀ a ∈ l, Char.toLower a = a) → l.map Char.toLower = l := by
  intro l
  induction l with
  | nil => intro _; rfl
  | cons a t ih =>
    intro h
    simp only [List.map_cons]
    rw [h a (List.mem_cons_self _ _), ih (fun b hb => h b (List.mem_cons_of_mem _ hb))]

theorem stripProtocolChars_eq_self {l : List Char} (h : ∀ a ∈ l, a ≠ '/') :
    stripProtocolChars l = l := by
  unfold stripProtocolChars
  rw [if_neg, if_neg]
  · intro hpre
    have := (List.isPrefixOf_iff_prefix.mp hpre).sublist.mem
      (show '/' ∈ ("https://".data) by decide)
    exact h '/' this rfl
  · intro hpre
    have := (List.isPrefixOf_iff_prefix.mp hpre).sublist.mem
      (show '/' ∈ ("http://".data) by decide)
    exact h '/' this rfl

theorem stripWwwChars_eq_self {l : List Char}
    (h : ("www.".data).isPrefixOf l = false) : stripWwwChars l = l := by
  unfold stripWwwChars
  rw [if_neg]
  simp [h]

theorem stripTrailingSlashChars_eq_self {l : List Char} (h : ∀ a ∈ l, a ≠ '/') :
    stripTrailingSlashChars l = l := by
  unfold stripTrailingSlashChars
  rw [if_neg]
  intro hlast
  exact h '/' (List.mem_of_mem_getLast? hlast) rfl

theorem trimChars_trimChars (z : List Char) :
    trimChars (trimChars z) = trimChars z := by
  unfold trimChars
  obtain ⟨t, ht⟩ := (List.dropWhile_suffix (l := (z.dropWhile Char.isWhitespace).reverse)
    Char.isWhitespace)
  set D := z.dropWhile Char.isWhitespace with hD
  set F := D.reverse.dropWhile Char.isWhitespace with hF
  have hstepA : F.reverse.dropWhile Char.isWhitespace = F.reverse := by
    cases hFr : F.reverse with
    | nil => rfl
    | cons a u =>
      have hD' : D = a :: (u ++ t.reverse) := by
        have : D = F.reverse ++ t.reverse := by
          rw [← List.reverse_append, ht, List.reverse_reverse]
        rw [this, hFr]
        simp
      have ha : Char.isWhitespace a = false := by
        apply dropWhile_head_false (p := Char.isWhitespace) (l := z)
        rw [← hD, hD']
        rfl
      rw [List.dropWhile_cons, if_neg (by simp [ha])]
  rw [hstepA, List.reverse_reverse, dropWhile_dropWhile]

theorem normalizeChars_idem {cs : List Char}
    (h : ("www.".data).isPrefixOf (normalizeChars cs) = false) :
    normalizeChars (normalizeChars cs) = normalizeChars cs := by
  have hlower : (normalizeChars cs).map Char.toLower = normalizeChars cs := by
    apply map_toLower_self
    intro a ha
    obtain ⟨b, _, rfl⟩ := mem_normalizeChars ha
    exact char_toLower_idem b
  have hnoslash : ∀ a ∈ normalizeChars cs, a ≠ '/' :=
    fun a ha => normalizeChars_no_slash ha
  conv_lhs => rw [normalizeChars]
  rw [hlower, stripProtocolChars_eq_self hnoslash, stripWwwChars_eq_self h,
    stripTrailingSlashChars_eq_self hnoslash,
    List.takeWhile_eq_self_iff.mpr (fun a ha => by simpa using hnoslash a ha)]
  conv_lhs => rw [normalizeChars]
  exact trimChars_trimChars _

/-! ### Failure-propagation lemmas (outer catch) -/

theorem processCandidate_noRecord {env : SearchEnv} {rows : List RegistrarRow}
    {statusEntries : List (String × StatusRecord)} {normalized d : String}
    (hs : statusGet statusEntries d = none) :
    processCandidate env rows statusEntries normalized d = .ok (none, [], []) := by
  unfold processCandidate
  rw [hs]

theorem processCandidate_cacheFail {env : SearchEnv} {rows : List RegistrarRow}
    {statusEntries : List (String × StatusRecord)} {normalized d : String}
    {rcd : StatusRecord}
    (hs : statusGet statusEntries d = some rcd)
    (hc : env.cachePut d (encodeAvail (effState (env.dnsFirst d) rcd)) = .error ()) :
    processCandidate env rows statusEntries normalized d = .error () := by
  unfold processCandidate
  rw [hs]
  dsimp only []
  rw [hc]

theorem initialPass_error_of_cacheFail {env : SearchEnv} {rows : List RegistrarRow}
    {statusEntries : List (String × StatusRecord)} {normalized : String}
    (hc : ∀ d n, env.cachePut d n = .error ()) :
    ∀ ds : List String, (∃ d ∈ ds, statusGet statusEntries d ≠ none) →
      initialPass env rows statusEntries normalized ds = .error () := by
  intro ds
  induction ds with
  | nil => rintro ⟨d, hd, -⟩; cases hd
  | cons d t ih =>
    rintro ⟨d0, hd0, hrec⟩
    unfold initialPass
    by_cases hsd : statusGet statusEntries d = none
    · rw [processCandidate_noRecord hsd]
      rcases List.mem_cons.mp hd0 with rfl | hd0
      · exact absurd hsd hrec
      · rw [ih ⟨d0, hd0, hrec⟩]
    · cases hget : statusGet statusEntries d with
      | none => exact absurd hget hsd
      | some rcd =>
        rw [processCandidate_cacheFail hget (hc _ _)]

theorem runSearch_pricingFail {env : SearchEnv}
    (h1 : jsTrim env.query ≠ "") (h2 : env.apiKey.getD "" ≠ "")
    (h3 : domainrSearchM env.searchOutcome ≠ [])
    (hq : env.registrarsQuery = .error ()) :
    runSearch env = .internalError := by
  unfold runSearch
  rw [if_neg h1]
  dsimp only []
  rw [if_neg h2, if_neg h3, hq]

theorem runSearch_cacheFail {env : SearchEnv} {rows : List RegistrarRow}
    (h1 : jsTrim env.query ≠ "") (h2 : env.apiKey.getD "" ≠ "")
    (h3 : domainrSearchM env.searchOutcome ≠ [])
    (hq : env.registrarsQuery = .ok rows)
    (hc : ∀ d n, env.cachePut d n = .error ())
    (hd : ∃ d ∈ (domainrSearchM env.searchOutcome).take 50,
      statusGet (domainrStatusM env.statusOutcome) d ≠ none) :
    runSearch env = .internalError := by
  unfold runSearch
  rw [if_neg h1]
  dsimp only []
  rw [if_neg h2, if_neg h3, hq]
  dsimp only []
  rw [initialPass_error_of_cacheFail hc _ hd]

theorem runSearch_suggestFailure {env : SearchEnv}
    (h1 : jsTrim env.query ≠ "") (h2 : env.apiKey.getD "" ≠ "")
    (h3 : env.searchOutcome = .netFail ∨ ∃ c, env.searchOutcome = .httpError c) :
    runSearch env = .success { query := normalizeDomain env.query, results := [] } := by
  have hempty : domainrSearchM env.searchOutcome = [] := by
    rcases h3 with h3 | ⟨c, h3⟩ <;> rw [h3] <;> rfl
  unfold runSearch
  rw [if_neg h1]
  dsimp only []
  rw [if_neg h2, if_pos hempty]

theorem runSearch_noKey {env : SearchEnv}
    (h1 : jsTrim env.query ≠ "") (h2 : env.apiKey.getD "" = "") :
    runSearch env = .noApiKey := by
  unfold runSearch
  rw [if_neg h1]
  dsimp only []
  rw [if_pos h2]

/-! ### The retry pass as a pure per-result map -/

/-- The retry pass's per-result update, stated as a pure function: a
result still `unknown` whose domain has a record in the retry batch is
reclassified (DNS fallback once more if the reclassification is still
`unknown`) and, when it flipped to available with no registrar list yet,
receives the unsorted registrar list; a result whose retry record is
absent, or whose state is already resolved, is left untouched. -/
def retrySpecStep (env : SearchEnv) (rows : List RegistrarRow)
    (retryEntries : List (String × StatusRecord)) (r : DomainResult) : DomainResult :=
  if r.status = .unknown then
    match statusGet retryEntries r.domain with
    | none => r
    | some rcd =>
      let retryStatus := effState (env.dnsRetry r.domain) rcd
      let r1 := { r with status := retryStatus }
      if retryStatus = .available ∧ r.registrars = none then
        { r1 with registrars := some (buildRegistrarsUnsorted rows r.tld r.domain) }
      else r1
  else r

theorem retryProcess_of_cacheOk {env : SearchEnv} {rows : List RegistrarRow}
    {retryEntries : List (String × StatusRecord)} {normalized : String}
    (hc : ∀ d n, env.cachePut d n = .ok ()) (r : DomainResult) :
    retryProcess env rows retryEntries normalized r =
      .ok (retrySpecStep env rows retryEntries r) := by
  unfold retryProcess retrySpecStep
  split
  · split
    · rfl
    · dsimp only []
      rw [hc]
  · rfl

theorem retryAll_of_cacheOk {env : SearchEnv} {rows : List RegistrarRow}
    {retryEntries : List (String × StatusRecord)} {normalized : String}
    (hc : ∀ d n, env.cachePut d n = .ok ()) :
    ∀ rs : List DomainResult,
      retryAll env rows retryEntries normalized rs =
        .ok (rs.map (retrySpecStep env rows retryEntries)) := by
  intro rs
  induction rs with
  | nil => rfl
  | cons r t ih =>
    unfold retryAll
    rw [retryProcess_of_cacheOk hc, ih]
    rfl

theorem retryPass_of_cacheOk {env : SearchEnv} {rows : List RegistrarRow}
    {normalized : String}
    (hc : ∀ d n, env.cachePut d n = .ok ()) (rs : List DomainResult) :
    retryPass env rows normalized rs =
      .ok (rs.map (retrySpecStep env rows (domainrStatusM (env.retryOutcome
        ((rs.filter (fun r => r.status == AvState.unknown)).map (fun r => r.domain)))))) := by
  unfold retryPass
  dsimp only []
  split
  · rename_i hempty
    have hnone : ∀ r ∈ rs, ¬ r.status = AvState.unknown := by
      intro r hr hst
      have : r ∈ rs.filter (fun r => r.status == AvState.unknown) := by
        rw [List.mem_filter]
        exact ⟨hr, by simp [hst]⟩
      rw [List.map_eq_nil_iff] at hempty
      rw [hempty] at this
      cases this
    congr 1
    symm
    calc rs.map (retrySpecStep env rows _) = rs.map id := by
          apply List.map_congr_left
          intro r hr
          unfold retrySpecStep
          rw [if_neg (hnone r hr)]
          rfl
      _ = rs := List.map_id rs
  · exact retryAll_of_cacheOk hc rs

/-! ### Concrete environments for the claims -/

/-- A `.com` pricing row in USD: registrar id `i`, price `p`. -/
def rowCom (i : Nat) (p : ℚ) : RegistrarRow :=
  { id := i, name := "r", website := "w", affiliate_link_template := "https://r/{domain}",
    logo_url := "l", is_active := true, display_order := i, created_at := "c",
    updated_at := "u", tld := some ".com", price := some p,
    renewal_price := none, transfer_price := none, currency := some "USD" }

/-- Base request environment: query `a`, one suggested candidate `a.com`
whose status record is fully unknown, a first-pass DNS failure, a retry
batch that reports the record as `inactive`, and two `.com` pricing rows
in repository display order: id 1 at 20 USD, id 2 at 5 USD. -/
def baseEnv : SearchEnv :=
  { query := "a", language := none, apiKey := some "k",
    searchOutcome := .success ["a.com"],
    statusOutcome := .success
      [("a.com", { status := some "unknown", summary := some "unknown" })],
    retryOutcome := fun _ => .success
      [("a.com", { status := some "inactive", summary := some "inactive" })],
    jpOutcome := .netFail,
    registrarsQuery := .ok [rowCom 1 20, rowCom 2 5],
    cachePut := fun _ _ => .ok (), histPut := fun _ => .ok (),
    histUpdate := fun _ _ _ => .ok (),
    dnsFirst := fun _ => .fail, dnsRetry := fun _ => .fail, dnsJp := fun _ => .fail }

/-- The result row the retry pass produces from `baseEnv`: flipped to
available, with the registrar list in display order (20 USD before
5 USD). -/
def resC1 : DomainResult :=
  { domain := "a.com", tld := ".com", status := .available,
    registrars := some [offerOfRow "a.com" (rowCom 1 20), offerOfRow "a.com" (rowCom 2 5)],
    whoisNull := false, cached := false }

/-- The response `baseEnv` produces. -/
def respC1 : SearchResponse := { query := "a", results := [resC1] }

/-- The claim's price normalization: divide JPY prices by the fixed
rate, leave others unchanged. -/
def claimNormPrice (o : RegistrarWithPrice) : ℚ :=
  if o.currency = some "JPY" then o.price / USD_TO_JPY else o.price

/-- C1 counterexample: a search in which the retry pass flips `a.com` to
available attaches the registrar list [20 USD, 5 USD] — deduplicated and
capped, but not sorted by normalized price, because the retry pass's
list builder has no sort step. -/
theorem C1_counterexample :
    runSearch baseEnv = .success respC1 ∧
    ¬ (∀ r ∈ respC1.results, r.status = .available →
        (r.registrars.getD []).Pairwise
          (fun a b => claimNormPrice a ≤ claimNormPrice b)) := by
  constructor
  · decide
  · decide

/-- C1 (amended): every registrar list attached to an available result —
whichever pass attached it — has pairwise-distinct registrar ids and at
most 10 entries; the initial per-candidate pass's builder additionally
sorts ascending by the comparator's normalized price, while the retry
and region passes' builder keeps repository display order. -/
theorem C1_amended_registrar_lists :
    (∀ env resp, runSearch env = .success resp →
      ∀ r ∈ resp.results, r.status = .available →
        ((r.registrars.getD []).map (fun o => o.id)).Nodup ∧
        (r.registrars.getD []).length ≤ 10) ∧
    (∀ rows tld domain, (buildRegistrarsSorted rows tld domain).Pairwise
      (fun a b => priceLe a b = true)) := by
  constructor
  · intro env resp h r hr _
    obtain ⟨hreg, -, -⟩ := runSearch_results_inv h r hr
    cases hrg : r.registrars with
    | none => simp
    | some l => simpa [hrg] using hreg l hrg
  · intro rows tld domain
    exact buildRegistrarsSorted_sorted rows tld domain

/-- C1 witness: the amended theorem applied to the concrete response of
`baseEnv`. -/
theorem C1_amended_registrar_lists_witness :
    ((resC1.registrars.getD []).map (fun o => o.id)).Nodup ∧
    (resC1.registrars.getD []).length ≤ 10 :=
  C1_amended_registrar_lists.1 baseEnv respC1 (by decide) resC1 (by decide) (by decide)

/-- Environment whose pricing query fails. -/
def envPricingFail : SearchEnv :=
  { baseEnv with
    registrarsQuery := .error () }

/-- Environment whose cache upserts fail. -/
def envCacheFail : SearchEnv :=
  { baseEnv with
    cachePut := fun _ _ => .error () }

/-- C2 counterexample: with every cache upsert failing, the search does
not return a normal SearchResponse — the failure escapes to the outer
catch and the route answers with the 500 internal-error response. -/
theorem C2_counterexample :
    envCacheFail.cachePut "a.com" 2 = .error () ∧
    runSearch envCacheFail = .internalError := by
  constructor
  · rfl
  · decide

/-- C2 (amended): a pricing-query failure, or a cache-upsert failure on
a candidate that has a status record, is not caught at its stage: it
propagates to the route's outer catch, which replaces the whole
response with the 500 internal error, so the search returns no normal
SearchResponse in those cases. -/
theorem C2_amended_failure_propagation :
    ∀ env : SearchEnv, jsTrim env.query ≠ "" → env.apiKey.getD "" ≠ "" →
      domainrSearchM env.searchOutcome ≠ [] →
      ((env.registrarsQuery = .error () → runSearch env = .internalError) ∧
       (∀ rows, env.registrarsQuery = .ok rows →
         (∀ d n, env.cachePut d n = .error ()) →
         (∃ d ∈ (domainrSearchM env.searchOutcome).take 50,
           statusGet (domainrStatusM env.statusOutcome) d ≠ none) →
         runSearch env = .internalError)) :=
  fun _ h1 h2 h3 =>
    ⟨fun hq => runSearch_pricingFail h1 h2 h3 hq,
     fun _ hq hc hd => runSearch_cacheFail h1 h2 h3 hq hc hd⟩

/-- C2 witness: the amended theorem applied to the environment whose
pricing query fails. -/
theorem C2_amended_failure_propagation_witness :
    runSearch envPricingFail = .internalError :=
  (C2_amended_failure_propagation envPricingFail (by decide) (by decide)
    (by decide)).1 rfl

/-- Environment for the region-augmentation ordering: language `ja`, one
suggested candidate `foo.com` that stays unknown (empty retry batch),
and a `.jp` record that classifies as available. -/
def envRegion : SearchEnv :=
  { baseEnv with
    query := "foo", language := some "ja",
    searchOutcome := .success ["foo.com"],
    statusOutcome := .success
      [("foo.com", { status := some "unknown", summary := some "unknown" })],
    retryOutcome := fun _ => .success [],
    jpOutcome := .success
      [("foo.jp", { status := some "inactive", summary := some "inactive" })],
    registrarsQuery := .ok [] }

/-- The response `envRegion` produces: the unknown `foo.com` first, the
available `foo.jp` appended after the sort. -/
def respRegion : SearchResponse :=
  { query := "foo",
    results :=
      [{ domain := "foo.com", tld := ".com", status := .unknown,
         registrars := none, whoisNull := false, cached := false },
       { domain := "foo.jp", tld := ".jp", status := .available,
         registrars := some [], whoisNull := false, cached := false }] }

/-- C3 counterexample: the final response puts an available result after
an unknown one, because the status sort runs before region augmentation
and the `.jp` candidate is appended afterwards. -/
theorem C3_counterexample :
    runSearch envRegion = .success respRegion ∧
    ¬ respRegion.results.Pairwise
      (fun a b => statusOrd a.status ≤ statusOrd b.status) := by
  constructor
  · decide
  · decide

/-- C3 (amended): the stable status sort (available before taken before
unknown, within equal state preserving the earlier order) is applied to
the results of the retry pass only; the regional candidate, when one is
added, is appended at the very end of the already-sorted list,
regardless of its own state. -/
theorem C3_amended_final_ordering :
    ∀ env resp, runSearch env = .success resp →
      ∃ base extra, resp.results = stableSort statusLe base ++ extra ∧
        extra.length ≤ 1 ∧
        (stableSort statusLe base).Pairwise
          (fun a b => statusOrd a.status ≤ statusOrd b.status) ∧
        ∀ s : AvState, (stableSort statusLe base).filter (fun r => r.status == s) =
          base.filter (fun r => r.status == s) := by
  have hsorted : ∀ rs : List DomainResult,
      (stableSort statusLe rs).Pairwise
        (fun a b => statusOrd a.status ≤ statusOrd b.status) := by
    intro rs
    exact (pairwise_stableSort statusLe_total statusLe_trans rs).imp
      (fun h => by simpa [statusLe] using h)
  have hfilter : ∀ (rs : List DomainResult) (s : AvState),
      (stableSort statusLe rs).filter (fun r => r.status == s) =
        rs.filter (fun r => r.status == s) := by
    intro rs s
    apply filter_stableSort
    intro a hpa b hb
    simp only [Bool.and_eq_true, Bool.not_eq_true'] at hb
    have hlt : statusOrd b.status < statusOrd a.status := by
      obtain ⟨h1, h2⟩ := hb
      simp only [statusLe, decide_eq_true_eq, decide_eq_false_iff_not] at h1 h2
      omega
    have ha : a.status = s := by simpa using hpa
    by_contra hbp
    have hbs : b.status = s := by
      cases hx : (b.status == s) with
      | true => simpa using hx
      | false => exact absurd hx (by simpa using hbp)
    rw [ha] at hlt
    rw [hbs] at hlt
    omega
  intro env resp h
  rcases runSearch_success_cases h with hres | ⟨rows, rs1, rs2, hq, h1, h2, hres⟩
  · refine ⟨[], [], ?_, by simp, by simp [stableSort], fun s => rfl⟩
    rw [hres]
    rfl
  · rcases jpAugment_cases env rows (normalizeDomain env.query) (stableSort statusLe rs2)
      with hcase | ⟨rjp, hcase, -, -, -⟩
    · refine ⟨rs2, [], ?_, by simp, hsorted rs2, hfilter rs2⟩
      rw [hres, hcase, List.append_nil]
    · refine ⟨rs2, [rjp], ?_, by simp, hsorted rs2, hfilter rs2⟩
      rw [hres, hcase]

/-- C3 witness: the amended theorem applied to the concrete response of
`envRegion`. -/
theorem C3_amended_final_ordering_witness :
    ∃ base extra, respRegion.results = stableSort statusLe base ++ extra ∧
      extra.length ≤ 1 ∧
      (stableSort statusLe base).Pairwise
        (fun a b => statusOrd a.status ≤ statusOrd b.status) ∧
      ∀ s : AvState, (stableSort statusLe base).filter (fun r => r.status == s) =
        base.filter (fun r => r.status == s) :=
  C3_amended_final_ordering envRegion respRegion (by decide)

/-- Environment in which the suggestion request itself fails on the
network. -/
def envSuggestNetFail : SearchEnv :=
  { baseEnv with
    searchOutcome := .netFail }

/-- Environment in which the suggestion provider answers non-OK. -/
def envSuggestHttpErr : SearchEnv :=
  { baseEnv with
    searchOutcome := .httpError 500 }

/-- C4 counterexample: with the credential configured and the suggestion
request failing on the network, the service still answers with a
normal-looking 200 success response carrying an empty result list —
`domainrSearch` catches every failure and returns the empty candidate
list, which the orchestrator treats as a valid nothing-found outcome. -/
theorem C4_counterexample :
    envSuggestNetFail.searchOutcome = .netFail ∧
    runSearch envSuggestNetFail = .success { query := "a", results := [] } := by
  constructor
  · rfl
  · decide

/-- C4 (amended): a network failure or a non-OK provider response in the
suggestion client degrades to the empty candidate list and the search
returns a normal empty-result success response; only a missing or
inactive credential is a hard, surfaced error (the 503 response). -/
theorem C4_amended_suggestion_failure :
    (∀ env : SearchEnv, jsTrim env.query ≠ "" → env.apiKey.getD "" ≠ "" →
      (env.searchOutcome = .netFail ∨ ∃ c, env.searchOutcome = .httpError c) →
      runSearch env = .success { query := normalizeDomain env.query, results := [] }) ∧
    (∀ env : SearchEnv, jsTrim env.query ≠ "" → env.apiKey.getD "" = "" →
      runSearch env = .noApiKey) :=
  ⟨fun _ h1 h2 h3 => runSearch_suggestFailure h1 h2 h3,
   fun _ h1 h2 => runSearch_noKey h1 h2⟩

/-- C4 witness: the amended theorem applied to the non-OK-response
environment. -/
theorem C4_amended_suggestion_failure_witness :
    runSearch envSuggestHttpErr = .success { query := "a", results := [] } :=
  C4_amended_suggestion_failure.1 envSuggestHttpErr (by decide) (by decide)
    (Or.inr ⟨500, rfl⟩)

/-- C5: the classifier agrees with the claim's priority cascade on every
record (absent record, the two summary classes, the token fallback when
the summary is unknown or empty, and the conservative default), and in
particular on the five examples the specification lists. -/
theorem C5_classifier_matches_spec :
    (∀ ds : Option StatusRecord, convertDomainrStatus ds = classifySpec ds) ∧
    convertDomainrStatus (some { summary := some "inactive" }) = .available ∧
    convertDomainrStatus (some { summary := some "active" }) = .taken ∧
    convertDomainrStatus
      (some { status := some "undelegated inactive", summary := some "unknown" }) =
      .available ∧
    convertDomainrStatus
      (some { status := some "unknown", summary := some "unknown" }) = .unknown ∧
    convertDomainrStatus none = .unknown :=
  ⟨convert_eq_spec, by decide, by decide, by decide, by decide, rfl⟩

/-- C6 counterexample: normalize is not idempotent — stripping the
leading `www.` once can expose another, so
`normalize("www.www.a") = "www.a"` while a second application gives
`"a"`. -/
theorem C6_counterexample :
    normalizeDomain (normalizeDomain "www.www.a") ≠ normalizeDomain "www.www.a" := by
  decide

/-- C6 (amended): normalize is idempotent on exactly the inputs whose
normalized form does not itself start with `www.` — the single `www.`
strip is the only non-idempotent step. -/
theorem C6_amended_normalize_idempotent :
    ∀ x : String, ("www.".data).isPrefixOf (normalizeDomain x).data = false →
      normalizeDomain (normalizeDomain x) = normalizeDomain x := by
  intro x h
  exact congrArg String.mk (normalizeChars_idem h)

/-- C6 witness: the amended theorem at a protocol-and-path input. -/
theorem C6_amended_normalize_idempotent_witness :
    normalizeDomain (normalizeDomain "HTTP://Example.com/path/") =
      normalizeDomain "HTTP://Example.com/path/" :=
  C6_amended_normalize_idempotent "HTTP://Example.com/path/" (by decide)

/-- C7: zone extraction is the claim's case analysis — fewer than two
dot-separated labels give the empty string, three or more labels with a
short second-to-last label give the last two labels, otherwise the last
label — and matches the three examples the specification lists. -/
theorem C7_extractZone_matches_spec :
    (∀ d : String, extractTLD d = extractZoneSpec d) ∧
    extractTLD "example.co.jp" = ".co.jp" ∧
    extractTLD "example.com" = ".com" ∧
    extractTLD "example" = "" :=
  ⟨extractTLD_eq_spec, by decide, by decide, by decide⟩

/-- C8: the DNS fallback is total over outcomes and returns available
exactly on an OK response with Status 3, taken on an OK response with
another status and a non-empty Answer array, and unknown on every other
outcome — thrown errors, non-OK responses, and empty answers included. -/
theorem C8_dns_fallback :
    checkDomainAvailabilityDNS .fail = .unknown ∧
    (∀ st ans, checkDomainAvailabilityDNS (.resp false st ans) = .unknown) ∧
    (∀ o, checkDomainAvailabilityDNS o = .available ↔ ∃ ans, o = .resp true 3 ans) ∧
    (∀ st ans, st ≠ 3 → 0 < (ans.getD []).length →
      checkDomainAvailabilityDNS (.resp true st ans) = .taken) ∧
    (∀ st ans, st ≠ 3 → (ans.getD []).length = 0 →
      checkDomainAvailabilityDNS (.resp true st ans) = .unknown) := by
  refine ⟨rfl, ?_, dns_available_iff, ?_, ?_⟩
  · intro st ans
    simp [checkDomainAvailabilityDNS]
  · intro st ans h3 hlen
    simp [checkDomainAvailabilityDNS, h3, hlen]
  · intro st ans h3 hlen
    simp [checkDomainAvailabilityDNS, h3, hlen]

/-- C8 witness: the theorem's taken clause at a concrete answered
response. -/
theorem C8_dns_fallback_witness :
    checkDomainAvailabilityDNS (.resp true 0 (some ["93.184.216.34"])) = .taken :=
  C8_dns_fallback.2.2.2.1 0 (some ["93.184.216.34"]) (by decide) (by decide)

/-- Environment in which the retry batch returns no record for the
still-unknown `a.com`, while a retry DNS check would have answered
taken. -/
def envRetryAbsent : SearchEnv :=
  { baseEnv with
    retryOutcome := fun _ => .success [],
    dnsRetry := fun _ => .resp true 0 (some ["93.184.216.34"]) }

/-- The response `envRetryAbsent` produces: `a.com` left unknown. -/
def respRetryAbsent : SearchResponse :=
  { query := "a",
    results := [{ domain := "a.com", tld := ".com", status := .unknown,
                  registrars := none, whoisNull := false, cached := false }] }

/-- C9 counterexample: the retry record for the unknown `a.com` is
absent; the claim's procedure — reclassify the absent record (unknown)
and then run the DNS fallback — would yield taken, but the code skips a
result whose retry record is absent entirely and the response keeps it
unknown. -/
theorem C9_counterexample :
    statusGet (domainrStatusM (envRetryAbsent.retryOutcome ["a.com"])) "a.com" = none ∧
    convertDomainrStatus none = .unknown ∧
    checkDomainAvailabilityDNS (envRetryAbsent.dnsRetry "a.com") = .taken ∧
    runSearch envRetryAbsent = .success respRetryAbsent := by
  refine ⟨rfl, rfl, rfl, ?_⟩
  decide

/-- C9 (amended): when at least one result is still unknown the
orchestrator (after the fixed delay) calls batch status once for exactly
the unknown subset, and— provided the cache upserts succeed — updates
each result in place by the pure per-result step: a still-unknown result
with a present retry record is reclassified, DNS-checked once more if
still unknown, and given the unsorted registrar list if it flipped to
available with none attached; a result whose retry record is absent is
left untouched. -/
theorem C9_amended_retry_pass :
    ∀ (env : SearchEnv) (rows : List RegistrarRow) (normalized : String)
      (results : List DomainResult),
      (∀ d n, env.cachePut d n = .ok ()) →
      retryPass env rows normalized results =
        .ok (results.map (retrySpecStep env rows (domainrStatusM (env.retryOutcome
          ((results.filter (fun r => r.status == AvState.unknown)).map
            (fun r => r.domain)))))) :=
  fun _ _ _ results hc => retryPass_of_cacheOk hc results

/-- The single still-unknown result row used by the C9 witness. -/
def resUnknownACom : DomainResult :=
  { domain := "a.com", tld := ".com", status := .unknown,
    registrars := none, whoisNull := false, cached := false }

/-- C9 witness: the amended theorem at the single still-unknown result
of `envRetryAbsent`. -/
theorem C9_amended_retry_pass_witness :
    retryPass envRetryAbsent [] "a" [resUnknownACom] =
      .ok ([resUnknownACom].map
        (retrySpecStep envRetryAbsent [] (domainrStatusM (envRetryAbsent.retryOutcome
          (([resUnknownACom].filter (fun r => r.status == AvState.unknown)).map
            (fun r => r.domain)))))) :=
  C9_amended_retry_pass envRetryAbsent [] "a" [resUnknownACom] (fun _ _ => rfl)

/-- The fully-unknown status record used in the C10 witness. -/
def rcdUnknown : StatusRecord := { status := some "unknown", summary := some "unknown" }

/-- C10: every result row of any response has a non-empty tld and a
domain of at least two dot-separated labels; and a candidate whose
extracted TLD is empty but that has a status record is still classified
(with DNS fallback folded into its effective state) and cache-written,
yet contributes no result row and no history row. -/
theorem C10_results_have_tld :
    (∀ env resp, runSearch env = .success resp →
      ∀ r ∈ resp.results, r.tld ≠ "" ∧ 2 ≤ (splitChar '.' r.domain.data).length) ∧
    (∀ (env : SearchEnv) (rows : List RegistrarRow)
       (statusEntries : List (String × StatusRecord)) (normalized d : String)
       (rcd : StatusRecord),
      statusGet statusEntries d = some rcd →
      extractTLD d = "" →
      env.cachePut d (encodeAvail (effState (env.dnsFirst d) rcd)) = .ok () →
      processCandidate env rows statusEntries normalized d =
        .ok (none, [(d, encodeAvail (effState (env.dnsFirst d) rcd))], [])) := by
  constructor
  · intro env resp h r hr
    obtain ⟨-, htld, hlab⟩ := runSearch_results_inv h r hr
    exact ⟨htld, hlab⟩
  · intro env rows statusEntries normalized d rcd hs htld hc
    unfold processCandidate
    rw [hs]
    dsimp only []
    rw [hc]
    dsimp only []
    rw [if_neg (by simp [htld])]

/-- C10 witness: the per-candidate pass on the zoneless candidate `abc`
with an unknown record — classified, cache-written, no result, no
history row. -/
theorem C10_results_have_tld_witness :
    processCandidate baseEnv [] [("abc", rcdUnknown)] "q" "abc" =
      .ok (none,
        [("abc", encodeAvail (effState (baseEnv.dnsFirst "abc") rcdUnknown))], []) :=
  C10_results_have_tld.2 baseEnv [] [("abc", rcdUnknown)] "q" "abc" rcdUnknown
    (by decide) (by decide) rfl
